import Mathlib

/-!
# Verification of the Home254 NLP utilities (`server.js`)

A shallow embedding of the natural-language-processing utilities of the
Home254 property-listing backend: the fuzzy string similarity
(`similarityScore` / `levenshteinDistance`), the property-intent detector
(`detectPropertyIntent`), location detection (`detectLocation`), number and
price extraction for the chat handler, and the LLM-reply JSON fallback.

Conventions of the embedding:
* JavaScript strings are `List Char`; `String.prototype.toLowerCase` /
  `toUpperCase` are mapped `Char.toLower` / `Char.toUpper` (the inputs of
  interest are ASCII).
* JavaScript numbers are embedded as exact rationals (`ℚ`); the numeric
  literals of the source (`0.7`, `0.85`, …) are exact.
* `a.includes(b)` is `b.isInfixOf a`; `message.split(/\s+/)` is `splitWs`.
* Loops mutating local accumulators become `List.foldl` over explicit
  state; a `for … { if hit { …; break } }` search becomes `List.any` /
  first-hit recursion.
-/

namespace Home254

/-- JavaScript `\s` (the whitespace class), restricted to the characters
that occur in practice (ASCII whitespace and the no-break space). -/
def isWs (c : Char) : Bool :=
  c = ' ' ∨ c = '\t' ∨ c = '\n' ∨ c = '\r' ∨ c = '\x0b' ∨ c = '\x0c' ∨ c = ' '

/-- `String.prototype.toLowerCase`, character-wise (ASCII). -/
def toLower (s : List Char) : List Char := s.map Char.toLower

/-- `hay.startsWith(needle)` (does `hay` begin with `needle`?). -/
def hasPre : List Char → List Char → Bool
  | _, [] => true
  | [], _ :: _ => false
  | c :: h, d :: n => c = d && hasPre h n

/-- `hay.includes(needle)`: substring containment, as in JavaScript. -/
def containsSub : List Char → List Char → Bool
  | [], needle => hasPre [] needle
  | c :: rest, needle => hasPre (c :: rest) needle || containsSub rest needle

/-- `message.split(/\s+/)`: the pieces between maximal whitespace runs.
A leading (resp. trailing) whitespace run yields a leading (resp. trailing)
empty piece, and the empty string splits to `[""]`, exactly as in
JavaScript.  Implemented as a right fold so that it evaluates by kernel
reduction; the accumulator is always nonempty. -/
def splitWs (s : List Char) : List (List Char) :=
  s.foldr
    (fun c acc =>
      if isWs c then
        match acc with
        | [] :: _ :: _ => acc
        | _ => [] :: acc
      else
        match acc with
        | t :: rest => (c :: t) :: rest
        | [] => [[c]])
    [[]]

/-! ## Edit distance

`lev` is the classic Levenshtein edit distance: insertions, deletions and
substitutions each cost 1.  It is the reference definition the claims talk
about.  `levenshteinDistance` below is the dynamic-programming
implementation translated from the source; the two are proved equal. -/

/-- Textbook Levenshtein distance with unit costs. -/
def lev : List Char → List Char → Nat
  | [], ys => ys.length
  | x :: xs, [] => (x :: xs).length
  | x :: xs, y :: ys =>
    if x = y then lev xs ys
    else 1 + min (lev xs ys) (min (lev (x :: xs) ys) (lev xs (y :: ys)))

/-- One inner iteration of the DP (`for j = 1 … str1.length`): given the
previous row (aligned so that its head is the diagonal entry
`matrix[i-1][j-1]`), the entry just computed to the left
(`matrix[i][j-1]`) and the current character `str2[i-1]`, produce the
entries `matrix[i][1…]` of the current row. -/
def levRowAux (c2 : Char) : List Char → List Nat → Nat → List Nat
  | c1 :: s1, diag :: prevRest, left =>
    let up := prevRest.headD 0
    let e := if c2 = c1 then diag else min (diag + 1) (min (left + 1) (up + 1))
    e :: levRowAux c2 s1 prevRest e
  | _, _, _ => []

/-- The outer DP loop (`for i = 1 … str2.length`): fold the rows.  `i` is
the index of the row being built, which is also its first entry
(`matrix[i][0] = i`). -/
def levRows (str1 : List Char) : List Char → List Nat → Nat → List Nat
  | [], row, _ => row
  | c2 :: rest, row, i => levRows str1 rest (i :: levRowAux c2 str1 row i) (i + 1)

/-- `levenshteinDistance(str1, str2)` from the source: the
`(str2.length+1) × (str1.length+1)` DP matrix, built row by row from
`matrix[0] = [0, 1, …, str1.length]`, whose bottom-right cell is the
result. -/
def levenshteinDistance (str1 str2 : List Char) : Nat :=
  (levRows str1 str2 (List.range (str1.length + 1)) 1).getLastD 0

/-- `similarityScore(str1, str2)` from the source: 1 on (lower-cased)
equality, 0.8 on substring containment either way, otherwise
`(maxLength - editDistance) / maxLength` over the longer/shorter pair. -/
def similarityScore (str1 str2 : List Char) : ℚ :=
  let s1 := toLower str1
  let s2 := toLower str2
  if s1 = s2 then 1
  else if containsSub s1 s2 || containsSub s2 s1 then (4 : ℚ)/5
  else
    let longer := if s1.length > s2.length then s1 else s2
    let shorter := if s1.length > s2.length then s2 else s1
    let editDistance := levenshteinDistance longer shorter
    let maxLength := longer.length
    if maxLength = 0 then 1
    else ((maxLength : ℚ) - editDistance) / maxLength

/-! ## The keyword table (`PROPERTY_KEYWORDS`) -/

/-- `PROPERTY_KEYWORDS.apartment`. -/
def apartmentSyns : List (List Char) :=
  ["apartment".data, "flat".data, "unit".data, "condo".data, "condominium".data,
   "maisonette".data, "penthouse".data, "studio".data, "bedsitter".data,
   "bedsit".data, "single room".data]

/-- `PROPERTY_KEYWORDS.bungalow`. -/
def bungalowSyns : List (List Char) :=
  ["bungalow".data, "cottage".data, "villa".data, "standalone".data,
   "detached".data, "single family".data, "townhouse".data, "duplex".data]

/-- `PROPERTY_KEYWORDS.land`. -/
def landSyns : List (List Char) :=
  ["land".data, "plot".data, "parcel".data, "acre".data, "acres".data,
   "hectare".data, "lot".data, "site".data, "ground".data]

/-- `PROPERTY_KEYWORDS.office`. -/
def officeSyns : List (List Char) :=
  ["office".data, "commercial".data, "workspace".data, "business space".data,
   "shop".data, "retail".data, "showroom".data, "warehouse".data, "godown".data]

/-- `PROPERTY_KEYWORDS.general`. -/
def generalTerms : List (List Char) :=
  ["property".data, "properties".data, "house".data, "houses".data, "home".data,
   "homes".data, "place".data, "residence".data, "dwelling".data,
   "accommodation".data, "housing".data, "real estate".data, "estate".data,
   "building".data, "premises".data]

/-- `PROPERTY_KEYWORDS.sale`. -/
def saleWords : List (List Char) :=
  ["sale".data, "buy".data, "purchase".data, "buying".data, "purchasing".data,
   "own".data, "ownership".data, "acquire".data, "investment".data]

/-- `PROPERTY_KEYWORDS.rent`. -/
def rentWords : List (List Char) :=
  ["rent".data, "rental".data, "lease".data, "leasing".data, "hire".data,
   "letting".data, "tenant".data, "tenancy".data]

/-- `PROPERTY_KEYWORDS.furnished`. -/
def furnishedWords : List (List Char) :=
  ["furnished".data, "furnished apartment".data, "fully furnished".data,
   "semi furnished".data, "with furniture".data, "fitted".data]

/-- `PROPERTY_KEYWORDS.unfurnished`. -/
def unfurnishedWords : List (List Char) :=
  ["unfurnished".data, "bare".data, "empty".data, "no furniture".data,
   "shell".data]

/-- `PROPERTY_KEYWORDS.locations` (the gazetteer, in table order). -/
def locationsList : List (List Char) :=
  ["nairobi".data, "karen".data, "westlands".data, "kilimani".data,
   "lavington".data, "kileleshwa".data, "parklands".data, "upperhill".data,
   "south b".data, "south c".data, "kiambu".data, "thika".data, "ruiru".data,
   "juja".data, "kikuyu".data, "limuru".data, "mombasa".data, "nyali".data,
   "bamburi".data, "diani".data, "malindi".data, "kisumu".data, "nakuru".data,
   "eldoret".data, "kakamega".data, "machakos".data, "kitengela".data]

/-- `PROPERTY_KEYWORDS.actions`. -/
def actionWords : List (List Char) :=
  ["looking for".data, "search".data, "find".data, "need".data, "want".data,
   "interested".data, "seeking".data, "show me".data, "get me".data,
   "available".data, "list".data, "display".data]

/-- `Object.entries(PROPERTY_KEYWORDS)` in insertion order. -/
def propertyKeywords : List (List Char × List (List Char)) :=
  [("apartment".data, apartmentSyns), ("bungalow".data, bungalowSyns),
   ("land".data, landSyns), ("office".data, officeSyns),
   ("general".data, generalTerms), ("sale".data, saleWords),
   ("rent".data, rentWords), ("furnished".data, furnishedWords),
   ("unfurnished".data, unfurnishedWords), ("locations".data, locationsList),
   ("actions".data, actionWords)]

/-- The categories skipped by the category loop of `detectPropertyIntent`. -/
def skipList : List (List Char) :=
  ["general".data, "actions".data, "locations".data, "sale".data, "rent".data,
   "furnished".data, "unfurnished".data]

/-! ## `detectPropertyIntent` -/

/-- The classifier state threaded through the token loop: the score
accumulator and `detectedCategory`. -/
abbrev IntentState := ℚ × Option (List Char)

/-- The inner synonym loop of the category check: for each synonym with
`similarity > (7 : ℚ)/10`, add `similarity * 2` to the score and update the
detected category when it is unset or `similarity > (17 : ℚ)/20`. -/
def synFold (w : List Char) (category : List Char) (syns : List (List Char))
    (st : IntentState) : IntentState :=
  syns.foldl
    (fun st syn =>
      let sim := similarityScore w syn
      if sim > (7 : ℚ)/10 then
        (st.1 + sim * 2,
         if st.2 = none ∨ sim > (17 : ℚ)/20 then some category else st.2)
      else st)
    st

/-- The category loop over `Object.entries(PROPERTY_KEYWORDS)`, skipping
the non-type buckets. -/
def catFold (w : List Char) (st : IntentState) : IntentState :=
  propertyKeywords.foldl
    (fun st e => if skipList.contains e.1 then st else synFold w e.1 e.2 st)
    st

/-- The general-term loop: `+1` for each general term with
`similarity > (3 : ℚ)/4`. -/
def genFold (w : List Char) (s : ℚ) : ℚ :=
  generalTerms.foldl
    (fun s term => if similarityScore w term > (3 : ℚ)/4 then s + 1 else s) s

/-- Does some action phrase occur in the (whole, lower-cased) message? -/
def actionHit (msg : List Char) : Bool :=
  actionWords.any (fun a => containsSub msg a)

/-- The action loop run for one token: `for action of actions { if
(msg.includes(action)) { score += 0.5; break } }` — it adds 0.5 exactly
when some action phrase occurs in the whole message. -/
def actFold (msg : List Char) (s : ℚ) : ℚ :=
  if actionHit msg then s + 1/2 else s

/-- The body of the token loop (`for (const word of words)`). -/
def tokenStep (msg : List Char) (st : IntentState) (w : List Char) :
    IntentState :=
  let st1 := catFold w st
  (actFold msg (genFold w st1.1), st1.2)

/-- The whole token loop, from score 0 and no detected category. -/
def wordsFold (msg : List Char) (words : List (List Char)) : IntentState :=
  words.foldl (tokenStep msg) (0, none)

/-- The transaction-type scan: the sale loop (first hit sets
`detectedType = "sale"`, `score += 1` and breaks), then — only if no sale
word was found — the rent loop.  Returns the detected type and the score
contribution. -/
def typeScan (msg : List Char) : Option (List Char) × ℚ :=
  if saleWords.any (fun w => containsSub msg w) then (some "sale".data, 1)
  else if rentWords.any (fun w => containsSub msg w) then (some "rent".data, 1)
  else (none, 0)

/-- The furnished-status scans.  The furnished loop sets
`features.isFurnished = true` and adds 0.5 on a hit; the unfurnished loop
then runs unconditionally and on a hit overwrites
`features.isFurnished = false` and adds another 0.5.  Returns
`features.isFurnished` and the score contribution. -/
def furnishScan (msg : List Char) : Option Bool × ℚ :=
  let st1 : Option Bool × ℚ :=
    if furnishedWords.any (fun w => containsSub msg w) then (some true, 1/2)
    else (none, 0)
  if unfurnishedWords.any (fun w => containsSub msg w) then
    (some false, st1.2 + 1/2)
  else st1

/-- The result record of `detectPropertyIntent`. -/
structure IntentResult where
  isPropertyRelated : Bool
  confidence : ℚ
  category : Option (List Char)
  propertyType : Option (List Char)
  isFurnished : Option Bool
  deriving Repr, DecidableEq

/-- `detectPropertyIntent(message)` from the source. -/
def detectPropertyIntent (message : List Char) : IntentResult :=
  let msg := toLower message
  let words := splitWs msg
  let wf := wordsFold msg words
  let ty := typeScan msg
  let fu := furnishScan msg
  let score := wf.1 + ty.2 + fu.2
  { isPropertyRelated := decide (score > 3/2)
    confidence := min (score / 5) 1
    category := wf.2
    propertyType := ty.1
    isFurnished := fu.1 }

/-- The value of the `score` accumulator at the end of
`detectPropertyIntent`. -/
def intentScore (message : List Char) : ℚ :=
  (wordsFold (toLower message) (splitWs (toLower message))).1 +
    (typeScan (toLower message)).2 + (furnishScan (toLower message)).2

/-! ## Number, price and location extraction -/

/-- Helper for `extractNumbers`: collect the maximal digit runs, carrying
the (reversed) run currently being read. -/
def digitRunsAux : List Char → Option (List Char) → List (List Char)
  | [], none => []
  | [], some run => [run.reverse]
  | c :: rest, none =>
    if c.isDigit then digitRunsAux rest (some [c]) else digitRunsAux rest none
  | c :: rest, some run =>
    if c.isDigit then digitRunsAux rest (some (c :: run))
    else run.reverse :: digitRunsAux rest none

/-- Parse a digit run as a base-10 natural number (`parseInt`). -/
def parseNat (run : List Char) : Nat :=
  run.foldl (fun n c => n * 10 + (c.toNat - 48)) 0

/-- `extractNumbers(text)`: all maximal digit runs, as numbers, in order
of appearance. -/
def extractNumbers (text : List Char) : List Nat :=
  (digitRunsAux text none).map parseNat

/-- First character of the scale-token alternation
`(m|million|k|thousand)` that matches at the head of `s`
(case-insensitive, alternatives tried left to right), with the matched
unit returned lower-cased.  A head `m` or `k` matches the one-letter
alternative before the longer ones can be tried. -/
def scaleUnitAt (s : List Char) : Option (List Char) :=
  match s with
  | [] => none
  | c :: _ =>
    if c.toLower = 'm' then some ['m']
    else if c.toLower = 'k' then some ['k']
    else if hasPre (toLower s) "thousand".data then some "thousand".data
    else none

/-- The leftmost match of `/(\d+)\s*(m|million|k|thousand)/i`: the first
digit run that is followed, after optional whitespace, by a scale token.
Returns the parsed digits and the (lower-cased) unit. -/
def priceScan : List Char → Option (Nat × List Char)
  | [] => none
  | c :: rest =>
    if c.isDigit then
      let run := c :: rest.takeWhile Char.isDigit
      let afterWs := (rest.dropWhile Char.isDigit).dropWhile isWs
      match scaleUnitAt afterWs with
      | some u => some (parseNat run, u)
      | none => priceScan rest
    else priceScan rest

/-- The `baseFilters.maxPrice` computation of the chat handler: only when
at least one number was extracted, match the price regex; a unit starting
with `m` scales by 1 000 000, else a unit starting with `k` scales by
1 000, else no price is set. -/
def chatMaxPrice (userMessage : List Char) : Option Nat :=
  let numbers := extractNumbers userMessage
  if numbers.length > 0 then
    match priceScan userMessage with
    | some (num, u) =>
      if u.headD ' ' = 'm' then some (num * 1000000)
      else if u.headD ' ' = 'k' then some (num * 1000)
      else none
    | none => none
  else none

/-- `w.charAt(0).toUpperCase() + w.slice(1)`. -/
def capitalizeWord : List Char → List Char
  | [] => []
  | c :: rest => c.toUpper :: rest

/-- `location.split(" ").map(capitalize).join(" ")`. -/
def titleCase (l : List Char) : List Char :=
  List.intercalate [' '] ((l.splitOn ' ').map capitalizeWord)

/-- The gazetteer loop of `detectLocation`: return the first entry of the
table found as a substring of the message, title-cased. -/
def detectLocationGo (msg : List Char) : List (List Char) → Option (List Char)
  | [] => none
  | l :: rest =>
    if containsSub msg l then some (titleCase l) else detectLocationGo msg rest

/-- `detectLocation(message)` from the source. -/
def detectLocation (message : List Char) : Option (List Char) :=
  detectLocationGo (toLower message) locationsList

/-! ## The LLM-reply JSON fallback of the chat handler -/

/-- Recognise `/```json\n?/i` at the head of `s`; on a match, return the
rest of the string (the optional newline consumed). -/
def fenceJsonAt : List Char → Option (List Char)
  | '`' :: '`' :: '`' :: c1 :: c2 :: c3 :: c4 :: rest =>
    if toLower [c1, c2, c3, c4] = "json".data then
      some (match rest with
            | '\n' :: r => r
            | r => r)
    else none
  | _ => none

/-- Recognise `/```\n?/` at the head of `s`. -/
def fenceAt : List Char → Option (List Char)
  | '`' :: '`' :: '`' :: rest =>
    some (match rest with
          | '\n' :: r => r
          | r => r)
  | _ => none

/-- `aiResponse.replace(/```json\n?/gi, "")`: delete every
(non-overlapping, leftmost-first) occurrence.  Fueled by the string
length; every step consumes at least one character. -/
def stripFenceA : Nat → List Char → List Char
  | 0, s => s
  | fuel + 1, s =>
    match fenceJsonAt s with
    | some r => stripFenceA fuel r
    | none =>
      match s with
      | [] => []
      | c :: rest => c :: stripFenceA fuel rest

/-- `…​.replace(/```\n?/g, "")`. -/
def stripFenceB : Nat → List Char → List Char
  | 0, s => s
  | fuel + 1, s =>
    match fenceAt s with
    | some r => stripFenceB fuel r
    | none =>
      match s with
      | [] => []
      | c :: rest => c :: stripFenceB fuel rest

/-- `String.prototype.trim`. -/
def trimWs (s : List Char) : List Char :=
  ((s.dropWhile isWs).reverse.dropWhile isWs).reverse

/-- The code-fence stripping applied to the raw LLM reply before
`JSON.parse`. -/
def cleanAiResponse (s : List Char) : List Char :=
  trimWs (stripFenceB (stripFenceA s.length s).length (stripFenceA s.length s))

/-- The filter-refinement boundary of the chat handler:
`try { filters = JSON.parse(cleaned) } catch { filters = baseFilters }`.
`JSON.parse` is a platform builtin; it is taken as an arbitrary fallible
function `parse`, so the statement covers every possible reply. -/
def refineFilters {E F : Type} (parse : List Char → Except E F) (baseFilters : F)
    (aiResponse : List Char) : F :=
  match parse (cleanAiResponse aiResponse) with
  | .ok f => f
  | .error _ => baseFilters

/-! ## Specification-side definitions

Reference functions the claims compare the implementation against: the
per-piece score contributions of the detector, the ordered list of fuzzy
category matches, and the row of Levenshtein values the DP is proved to
compute. -/

/-- Score added by one synonym comparison of the category loop. -/
def synScore (w syn : List Char) : ℚ :=
  if similarityScore w syn > (7 : ℚ)/10 then similarityScore w syn * 2 else 0

/-- Score added by the category loop for one token. -/
def catScore (w : List Char) : ℚ :=
  (propertyKeywords.map
    (fun e => if skipList.contains e.1 then 0 else ((e.2.map (synScore w)).sum))).sum

/-- Score added by the general-term loop for one token. -/
def genScore (w : List Char) : ℚ :=
  (generalTerms.map
    (fun t => if similarityScore w t > (3 : ℚ)/4 then (1 : ℚ) else 0)).sum

/-- The `detectedCategory` update of the category loop, restricted to its
category component. -/
def catUpd (w : List Char) (c : Option (List Char)) : Option (List Char) :=
  propertyKeywords.foldl
    (fun c e =>
      if skipList.contains e.1 then c
      else
        e.2.foldl
          (fun c syn =>
            if similarityScore w syn > (7 : ℚ)/10 then
              (if c = none ∨ similarityScore w syn > (17 : ℚ)/20 then some e.1 else c)
            else c)
          c)
    c

/-- One `detectedCategory` update, applied to a recorded match. -/
def updCategory (c : Option (List Char)) (p : List Char × ℚ) :
    Option (List Char) :=
  if c = none ∨ p.2 > (17 : ℚ)/20 then some p.1 else c

/-- The category/similarity matches produced by one token, in
keyword-table and synonym order: every non-skipped synonym whose fuzzy
similarity with the token exceeds 0.7. -/
def catMatchesOfWord (w : List Char) : List (List Char × ℚ) :=
  propertyKeywords.flatMap
    (fun e =>
      if skipList.contains e.1 then []
      else
        e.2.filterMap
          (fun syn =>
            if similarityScore w syn > (7 : ℚ)/10 then
              some (e.1, similarityScore w syn)
            else none))

/-- All category matches of a message, in token order then table order. -/
def catMatches (words : List (List Char)) : List (List Char × ℚ) :=
  words.flatMap catMatchesOfWord

/-- The decision rule claimed for `detectedCategory`: the category of the
last match whose similarity exceeds 0.85, or of the first match (all
recorded matches exceed 0.7) when none does. -/
def categoryChoice (ms : List (List Char × ℚ)) : Option (List Char) :=
  match (ms.filter (fun p => p.2 > (17 : ℚ)/20)).getLast? with
  | some p => some p.1
  | none => ms.head?.map Prod.fst

/-- The token loop with the action check removed (reference for the
action-contribution claim). -/
def wordsFoldBase (words : List (List Char)) : IntentState :=
  words.foldl
    (fun st w =>
      let st1 := catFold w st
      (genFold w st1.1, st1.2))
    (0, none)

/-- The total score contribution of one token of the token loop. -/
def tokenScore (msg w : List Char) : ℚ :=
  catScore w + genScore w + (if actionHit msg then (1 : ℚ)/2 else 0)

/-- The row of Levenshtein values the DP maintains: for the fixed string
`B` (one side, reversed) and the prefix of the other side accumulated in
reverse in `acc`, the distances of `B` against `acc`, `c₁ :: acc`,
`c₂ :: c₁ :: acc`, … for the remaining characters of `s1`. -/
def rowSpec (B : List Char) : List Char → List Char → List Nat
  | acc, [] => [lev B acc]
  | acc, c :: rest => lev B acc :: rowSpec B (c :: acc) rest

/-! ## Bridging the boolean string tests and their propositional forms -/

theorem hasPre_iff (h n : List Char) : hasPre h n = true ↔ n <+: h := by
  induction h generalizing n with
  | nil =>
    cases n with
    | nil => simp [hasPre]
    | cons d n => simp [hasPre]
  | cons c h ih =>
    cases n with
    | nil => simp [hasPre]
    | cons d n =>
      simp only [hasPre, Bool.and_eq_true, decide_eq_true_eq,
        List.cons_prefix_cons, ih]
      constructor
      · rintro ⟨h1, h2⟩
        exact ⟨h1.symm, h2⟩
      · rintro ⟨h1, h2⟩
        exact ⟨h1.symm, h2⟩

theorem containsSub_iff (h n : List Char) : containsSub h n = true ↔ n <:+: h := by
  induction h with
  | nil =>
    cases n with
    | nil => simp [containsSub, hasPre]
    | cons d n => simp [containsSub, hasPre, List.infix_nil]
  | cons c h ih =>
    simp [containsSub, hasPre_iff, ih, List.infix_cons_iff]

theorem any_containsSub_iff (l : List (List Char)) (msg : List Char) :
    l.any (fun w => containsSub msg w) = true ↔ ∃ w ∈ l, w <:+: msg := by
  simp [List.any_eq_true, containsSub_iff]

theorem containsSub_false_iff (h n : List Char) :
    containsSub h n = false ↔ ¬ n <:+: h := by
  rw [← containsSub_iff]
  cases containsSub h n <;> simp

/-! ## The edit distance: basic equations and bounds -/

theorem lev_nil_left (ys : List Char) : lev [] ys = ys.length :=
  lev.eq_1 ys

theorem lev_nil_right (xs : List Char) : lev xs [] = xs.length := by
  cases xs with
  | nil => exact lev.eq_1 []
  | cons x xs => exact lev.eq_2 x xs

theorem lev_cons_cons (x y : Char) (xs ys : List Char) :
    lev (x :: xs) (y :: ys) =
      if x = y then lev xs ys
      else 1 + min (lev xs ys) (min (lev (x :: xs) ys) (lev xs (y :: ys))) :=
  lev.eq_3 x xs y ys

theorem lev_le_max_aux (n : Nat) : ∀ xs ys : List Char,
    xs.length + ys.length ≤ n → lev xs ys ≤ max xs.length ys.length := by
  induction n with
  | zero =>
    intro xs ys h
    cases xs <;> cases ys <;> simp_all [lev_nil_left]
  | succ n ih =>
    intro xs ys h
    cases xs with
    | nil => simp [lev_nil_left]
    | cons x xs =>
      cases ys with
      | nil => simp [lev_nil_right]
      | cons y ys =>
        rw [lev_cons_cons]
        simp only [List.length_cons] at h
        have h1 := ih xs ys (by omega)
        have h2 := ih (x :: xs) ys (by simp; omega)
        have h3 := ih xs (y :: ys) (by simp; omega)
        simp only [List.length_cons] at h2 h3 ⊢
        by_cases hxy : x = y <;> simp [hxy] <;> omega

/-- The edit distance is at most the longer length. -/
theorem lev_le_max (xs ys : List Char) : lev xs ys ≤ max xs.length ys.length :=
  lev_le_max_aux (xs.length + ys.length) xs ys le_rfl

theorem lev_symm_aux (n : Nat) : ∀ xs ys : List Char,
    xs.length + ys.length ≤ n → lev xs ys = lev ys xs := by
  induction n with
  | zero =>
    intro xs ys h
    cases xs <;> cases ys <;> simp_all [lev_nil_left]
  | succ n ih =>
    intro xs ys h
    cases xs with
    | nil => simp [lev_nil_left, lev_nil_right]
    | cons x xs =>
      cases ys with
      | nil => simp [lev_nil_left, lev_nil_right]
      | cons y ys =>
        rw [lev_cons_cons, lev_cons_cons]
        simp only [List.length_cons] at h
        have h1 := ih xs ys (by omega)
        have h2 := ih (x :: xs) ys (by simp; omega)
        have h3 := ih xs (y :: ys) (by simp; omega)
        by_cases hxy : x = y
        · simp [hxy, h1]
        · have hyx : ¬ y = x := fun hc => hxy hc.symm
          simp only [if_neg hxy, if_neg hyx]
          omega

/-- The edit distance is symmetric. -/
theorem lev_symm (xs ys : List Char) : lev xs ys = lev ys xs :=
  lev_symm_aux (xs.length + ys.length) xs ys le_rfl

/-- Regrouping a minimum of nine values, as needed to show that the two
ways of unfolding the edit-distance recurrence around a 2×2 block agree. -/
theorem min_regroup (m00 m10 m01 a b p q r s : ℕ) :
    min (1 + min m00 (min a b))
        (min (1 + min m10 (min p q)) (1 + min m01 (min r s))) =
    min (1 + min m00 (min m10 m01))
        (min (1 + min a (min p r)) (1 + min b (min q s))) := by
  have h : ∀ u v : ℕ, 1 + min u v = min (1 + u) (1 + v) := fun u v =>
    (min_add_add_left 1 u v).symm
  rw [h m00 (min a b), h a b, h m10 (min p q), h p q, h m01 (min r s), h r s,
    h m00 (min m10 m01), h m10 m01, h a (min p r), h p r, h b (min q s), h q s]
  ac_rfl

theorem lev_concat_aux (n : Nat) : ∀ (xs ys : List Char) (c d : Char),
    xs.length + ys.length ≤ n →
    lev (xs ++ [c]) (ys ++ [d]) =
      if c = d then lev xs ys
      else 1 + min (lev xs ys)
        (min (lev (xs ++ [c]) ys) (lev xs (ys ++ [d]))) := by
  induction n with
  | zero =>
    intro xs ys c d h
    cases xs <;> cases ys <;> simp_all
    simp [List.nil_append, lev_cons_cons]
  | succ n ih =>
    intro xs ys c d h
    cases xs with
    | nil =>
      cases ys with
      | nil => simp [List.nil_append, lev_cons_cons]
      | cons y ys' =>
        simp only [List.nil_append, List.cons_append, List.length_nil,
          List.length_cons] at h ⊢
        have h1 := lev_cons_cons c y [] (ys' ++ [d])
        have h2 := lev_cons_cons c y [] ys'
        have IH1 := ih [] ys' c d (by simp; omega)
        simp only [List.nil_append] at IH1
        simp only [lev_nil_left, List.length_append, List.length_cons,
          List.length_singleton, List.length_nil] at h1 h2 IH1 ⊢
        split_ifs at h1 h2 IH1 ⊢ <;> omega
    | cons x xs' =>
      cases ys with
      | nil =>
        simp only [List.nil_append, List.cons_append, List.length_nil,
          List.length_cons] at h ⊢
        have h1 := lev_cons_cons x d (xs' ++ [c]) []
        have h2 := lev_cons_cons x d xs' []
        have IH1 := ih xs' [] c d (by simp; omega)
        simp only [List.nil_append] at IH1
        simp only [lev_nil_right, List.length_append, List.length_cons,
          List.length_singleton, List.length_nil] at h1 h2 IH1 ⊢
        split_ifs at h1 h2 IH1 ⊢ <;> omega
      | cons y ys' =>
        simp only [List.cons_append, List.length_cons] at h ⊢
        have g1 := lev_cons_cons x y (xs' ++ [c]) (ys' ++ [d])
        have g2 := lev_cons_cons x y xs' ys'
        have g3 := lev_cons_cons x y (xs' ++ [c]) ys'
        have g4 := lev_cons_cons x y xs' (ys' ++ [d])
        have IH00 := ih xs' ys' c d (by omega)
        have IH10 := ih (x :: xs') ys' c d (by simp; omega)
        have IH01 := ih xs' (y :: ys') c d (by simp; omega)
        simp only [List.cons_append] at IH10 IH01
        by_cases hxy : x = y
        · rw [if_pos hxy] at g1 g2 g3 g4
          rw [g1, IH00, g2, g3, g4]
        · rw [if_neg hxy] at g1 g2 g3 g4
          rw [g1, IH00, IH10, IH01, g2, g3, g4]
          by_cases hcd : c = d
          · simp only [if_pos hcd]
          · simp only [if_neg hcd]
            exact congrArg (fun t => 1 + t)
              (min_regroup _ _ _ _ _ _ _ _ _)

/-- The last-character recurrence of the edit distance (the recurrence
the DP table is built from). -/
theorem lev_concat (xs ys : List Char) (c d : Char) :
    lev (xs ++ [c]) (ys ++ [d]) =
      if c = d then lev xs ys
      else 1 + min (lev xs ys)
        (min (lev (xs ++ [c]) ys) (lev xs (ys ++ [d]))) :=
  lev_concat_aux (xs.length + ys.length) xs ys c d le_rfl

theorem lev_reverse_aux (n : Nat) : ∀ xs ys : List Char,
    xs.length + ys.length ≤ n → lev xs.reverse ys.reverse = lev xs ys := by
  induction n with
  | zero =>
    intro xs ys h
    cases xs <;> cases ys <;> simp_all
  | succ n ih =>
    intro xs ys h
    cases xs with
    | nil => simp [lev_nil_left]
    | cons x xs' =>
      cases ys with
      | nil => simp [lev_nil_right]
      | cons y ys' =>
        simp only [List.length_cons] at h
        rw [List.reverse_cons, List.reverse_cons, lev_concat, lev_cons_cons]
        rw [← List.reverse_cons x xs', ← List.reverse_cons y ys']
        rw [ih xs' ys' (by omega), ih (x :: xs') ys' (by simp; omega),
          ih xs' (y :: ys') (by simp; omega)]

/-- The edit distance is invariant under reversing both strings. -/
theorem lev_reverse (xs ys : List Char) :
    lev xs.reverse ys.reverse = lev xs ys :=
  lev_reverse_aux (xs.length + ys.length) xs ys le_rfl

/-! ## Correctness of the DP implementation -/

theorem rowSpec_ne_nil (B acc s1 : List Char) : rowSpec B acc s1 ≠ [] := by
  cases s1 <;> simp [rowSpec]

theorem rowSpec_cons_form (B acc s1 : List Char) :
    rowSpec B acc s1 = lev B acc :: (rowSpec B acc s1).tail := by
  cases s1 <;> simp [rowSpec]

theorem rowSpec_headD (B acc s1 : List Char) :
    (rowSpec B acc s1).headD 0 = lev B acc := by
  cases s1 <;> simp [rowSpec]

theorem levRowAux_spec (c2 : Char) : ∀ (s1 acc B : List Char),
    levRowAux c2 s1 (rowSpec B acc s1) (lev (c2 :: B) acc) =
      (rowSpec (c2 :: B) acc s1).tail := by
  intro s1
  induction s1 with
  | nil => intro acc B; simp [rowSpec, levRowAux]
  | cons c1 rest ih =>
    intro acc B
    have hup := rowSpec_headD B (c1 :: acc) rest
    simp only [rowSpec, levRowAux, hup]
    have he :
        (if c2 = c1 then lev B acc
         else min (lev B acc + 1)
           (min (lev (c2 :: B) acc + 1) (lev B (c1 :: acc) + 1))) =
          lev (c2 :: B) (c1 :: acc) := by
      rw [lev_cons_cons]
      by_cases h : c2 = c1
      · simp [h]
      · simp only [if_neg h]
        omega
    rw [he, ih (c1 :: acc) B]
    exact (rowSpec_cons_form (c2 :: B) (c1 :: acc) rest).symm

theorem levRows_spec (str1 : List Char) : ∀ (s2 B : List Char) (i : Nat),
    i = B.length + 1 →
    levRows str1 s2 (rowSpec B [] str1) i = rowSpec (s2.reverse ++ B) [] str1 := by
  intro s2
  induction s2 with
  | nil => intro B i hi; simp [levRows]
  | cons c2 rest ih =>
    intro B i hi
    simp only [levRows]
    have hlev : lev (c2 :: B) [] = i := by
      rw [lev_nil_right]
      simp [hi]
    have hrow : i :: levRowAux c2 str1 (rowSpec B [] str1) i =
        rowSpec (c2 :: B) [] str1 := by
      conv_lhs => rw [← hlev]
      rw [levRowAux_spec c2 str1 [] B]
      exact (rowSpec_cons_form (c2 :: B) [] str1).symm
    rw [hrow, ih (c2 :: B) (i + 1) (by simp [hi])]
    congr 1
    simp [List.reverse_cons, List.append_assoc]

theorem rowSpec_nil_map : ∀ (s1 acc : List Char),
    rowSpec [] acc s1 = (List.range (s1.length + 1)).map (· + acc.length) := by
  intro s1
  induction s1 with
  | nil => intro acc; simp [rowSpec, lev_nil_left, List.range_succ]
  | cons c rest ih =>
    intro acc
    simp only [rowSpec, lev_nil_left, ih (c :: acc), List.length_cons]
    conv_rhs => rw [List.range_succ_eq_map]
    simp only [List.map_cons, List.map_map, Nat.zero_add]
    refine congrArg (acc.length :: ·) (List.map_congr_left ?_)
    intro a _
    simp [Function.comp]
    omega

theorem range_eq_rowSpec (s1 : List Char) :
    List.range (s1.length + 1) = rowSpec [] [] s1 := by
  rw [rowSpec_nil_map]
  simp

theorem rowSpec_getLastD : ∀ (s1 acc B : List Char),
    (rowSpec B acc s1).getLastD 0 = lev B (s1.reverse ++ acc) := by
  intro s1
  induction s1 with
  | nil => intro acc B; simp [rowSpec]
  | cons c rest ih =>
    intro acc B
    simp only [rowSpec, List.getLastD_cons]
    have hne := rowSpec_ne_nil B (c :: acc) rest
    have hdef : ∀ (l : List Nat) (d1 d2 : Nat), l ≠ [] →
        l.getLastD d1 = l.getLastD d2 := by
      intro l d1 d2 hl
      have hs : l.getLast?.isSome := List.getLast?_isSome.mpr hl
      obtain ⟨x, hx⟩ := Option.isSome_iff_exists.mp hs
      simp [List.getLastD_eq_getLast?, hx]
    rw [hdef _ _ 0 hne, ih (c :: acc) B]
    congr 1
    simp [List.reverse_cons, List.append_assoc]

/-- The DP of the source computes the textbook Levenshtein distance. -/
theorem levenshteinDistance_eq_lev (str1 str2 : List Char) :
    levenshteinDistance str1 str2 = lev str1 str2 := by
  unfold levenshteinDistance
  rw [range_eq_rowSpec, levRows_spec str1 str2 [] 1 (by simp),
    rowSpec_getLastD]
  simp only [List.append_nil]
  rw [lev_reverse, lev_symm]

/-! ## Decomposing the folds of `detectPropertyIntent` -/

/-- A fold whose step adds a score increment independent of the category
state and updates the category independently of the score splits into the
sum of the increments and the category-only fold. -/
theorem foldl_shape {α K : Type} (step : (ℚ × K) → α → (ℚ × K)) (f : α → ℚ)
    (u : K → α → K) (hstep : ∀ s c x, step (s, c) x = (s + f x, u c x)) :
    ∀ (l : List α) (s : ℚ) (c : K),
      l.foldl step (s, c) = (s + (l.map f).sum, l.foldl u c) := by
  intro l
  induction l with
  | nil => intro s c; simp
  | cons x l ih =>
    intro s c
    simp only [List.foldl_cons, List.map_cons, List.sum_cons, hstep, ih,
      add_assoc]

theorem foldl_add_shape {α : Type} (step : ℚ → α → ℚ) (f : α → ℚ)
    (hstep : ∀ s x, step s x = s + f x) :
    ∀ (l : List α) (s : ℚ), l.foldl step s = s + (l.map f).sum := by
  intro l
  induction l with
  | nil => intro s; simp
  | cons x l ih =>
    intro s
    simp only [List.foldl_cons, List.map_cons, List.sum_cons, hstep, ih,
      add_assoc]

theorem foldl_ext {α K : Type} (f g : K → α → K)
    (h : ∀ acc x, f acc x = g acc x) :
    ∀ (l : List α) (c : K), l.foldl f c = l.foldl g c := by
  intro l
  induction l with
  | nil => intro c; rfl
  | cons x l ih => intro c; simp only [List.foldl_cons, h, ih]

theorem synFold_eq (w name : List Char) (syns : List (List Char)) (s : ℚ)
    (c : Option (List Char)) :
    synFold w name syns (s, c) =
      (s + (syns.map (synScore w)).sum,
       syns.foldl
         (fun c syn =>
           if similarityScore w syn > (7 : ℚ)/10 then
             (if c = none ∨ similarityScore w syn > (17 : ℚ)/20 then some name else c)
           else c)
         c) := by
  refine foldl_shape _ (synScore w) _ ?_ syns s c
  intro s c syn
  by_cases h : similarityScore w syn > (7 : ℚ)/10 <;> simp [synFold, synScore, h]

theorem catFold_eq (w : List Char) (s : ℚ) (c : Option (List Char)) :
    catFold w (s, c) = (s + catScore w, catUpd w c) := by
  refine foldl_shape _
    (fun e => if skipList.contains e.1 then 0 else ((e.2.map (synScore w)).sum))
    (fun c e =>
      if skipList.contains e.1 then c
      else
        e.2.foldl
          (fun c syn =>
            if similarityScore w syn > (7 : ℚ)/10 then
              (if c = none ∨ similarityScore w syn > (17 : ℚ)/20 then some e.1 else c)
            else c)
          c)
    ?_ propertyKeywords s c
  intro s c e
  by_cases h : e.1 ∈ skipList
  · simp [h]
  · simp [h, synFold_eq]

theorem genFold_eq (w : List Char) (s : ℚ) : genFold w s = s + genScore w := by
  refine foldl_add_shape _
    (fun t => if similarityScore w t > (3 : ℚ)/4 then (1 : ℚ) else 0) ?_
    generalTerms s
  intro s t
  by_cases h : similarityScore w t > (3 : ℚ)/4 <;> simp [h]

theorem actFold_eq (msg : List Char) (s : ℚ) :
    actFold msg s = s + (if actionHit msg then (1 : ℚ)/2 else 0) := by
  unfold actFold
  by_cases h : actionHit msg <;> simp [h]

theorem tokenStep_eq (msg : List Char) (s : ℚ) (c : Option (List Char))
    (w : List Char) :
    tokenStep msg (s, c) w = (s + tokenScore msg w, catUpd w c) := by
  simp only [tokenStep, catFold_eq, genFold_eq, actFold_eq, tokenScore,
    add_assoc]

theorem wordsFold_eq (msg : List Char) (words : List (List Char)) :
    wordsFold msg words =
      ((words.map (tokenScore msg)).sum,
       words.foldl (fun c w => catUpd w c) none) := by
  unfold wordsFold
  rw [foldl_shape (tokenStep msg) (tokenScore msg) (fun c w => catUpd w c)
    (fun s c w => tokenStep_eq msg s c w) words 0 none]
  simp

theorem wordsFoldBase_eq (words : List (List Char)) :
    wordsFoldBase words =
      ((words.map (fun w => catScore w + genScore w)).sum,
       words.foldl (fun c w => catUpd w c) none) := by
  unfold wordsFoldBase
  rw [foldl_shape _ (fun w => catScore w + genScore w) (fun c w => catUpd w c)
    ?_ words 0 none]
  · simp
  · intro s c w
    simp only [catFold_eq, genFold_eq, add_assoc]

/-! ## Projections of `detectPropertyIntent` -/

theorem detect_confidence (m : List Char) :
    (detectPropertyIntent m).confidence = min (intentScore m / 5) 1 := rfl

theorem detect_isPropertyRelated (m : List Char) :
    (detectPropertyIntent m).isPropertyRelated =
      decide (intentScore m > 3/2) := rfl

theorem detect_category (m : List Char) :
    (detectPropertyIntent m).category =
      (wordsFold (toLower m) (splitWs (toLower m))).2 := rfl

theorem detect_propertyType (m : List Char) :
    (detectPropertyIntent m).propertyType = (typeScan (toLower m)).1 := rfl

theorem detect_isFurnished (m : List Char) :
    (detectPropertyIntent m).isFurnished = (furnishScan (toLower m)).1 := rfl

/-! ## A closed form for `similarityScore` -/

/-- `similarityScore` in a canonical form: the longer/shorter selection and
the unreachable `maxLength = 0` guard are absorbed into `max` and the
symmetric `lev`. -/
theorem similarityScore_eq (x y : List Char) :
    similarityScore x y =
      if toLower x = toLower y then 1
      else if containsSub (toLower x) (toLower y) ||
          containsSub (toLower y) (toLower x) then (4 : ℚ)/5
      else
        (((max (toLower x).length (toLower y).length : ℕ) : ℚ) -
            lev (toLower x) (toLower y)) /
          ((max (toLower x).length (toLower y).length : ℕ) : ℚ) := by
  simp only [similarityScore]
  set s1 := toLower x with hs1
  set s2 := toLower y with hs2
  by_cases h : s1 = s2
  · simp [h]
  · rw [if_neg h, if_neg h]
    by_cases hb : (containsSub s1 s2 || containsSub s2 s1) = true
    · rw [if_pos hb, if_pos hb]
    · rw [if_neg hb, if_neg hb]
      by_cases hlen : s1.length > s2.length
      · rw [if_pos hlen, if_pos hlen, if_neg (by omega : ¬ s1.length = 0),
          levenshteinDistance_eq_lev, max_eq_left (Nat.le_of_lt hlen)]
      · rw [if_neg hlen, if_neg hlen]
        have hle : s1.length ≤ s2.length := Nat.le_of_not_lt hlen
        have hs2ne : ¬ s2.length = 0 := by
          intro h0
          have h1 : s1.length = 0 := by omega
          rw [List.length_eq_zero] at h0 h1
          exact h (h1.trans h0.symm)
        rw [if_neg hs2ne, levenshteinDistance_eq_lev, lev_symm s2 s1,
          max_eq_right hle]

theorem similarityScore_bounds (x y : List Char) :
    0 ≤ similarityScore x y ∧ similarityScore x y ≤ 1 := by
  rw [similarityScore_eq]
  split_ifs with h1 h2
  · norm_num
  · norm_num
  · have hlev : lev (toLower x) (toLower y) ≤
        max (toLower x).length (toLower y).length := lev_le_max _ _
    have hM0 : 0 < max (toLower x).length (toLower y).length := by
      rcases Nat.eq_zero_or_pos (max (toLower x).length (toLower y).length)
        with h0 | h0
      · exfalso
        apply h1
        have hx : (toLower x).length = 0 := by omega
        have hy : (toLower y).length = 0 := by omega
        rw [List.length_eq_zero] at hx hy
        rw [hx, hy]
      · exact h0
    have hMQ : (0 : ℚ) < ((max (toLower x).length (toLower y).length : ℕ) : ℚ) := by
      exact_mod_cast hM0
    have hlevQ : (lev (toLower x) (toLower y) : ℚ) ≤
        ((max (toLower x).length (toLower y).length : ℕ) : ℚ) := by
      exact_mod_cast hlev
    have hlev0 : (0 : ℚ) ≤ (lev (toLower x) (toLower y) : ℚ) := by
      exact_mod_cast Nat.zero_le _
    constructor
    · apply div_nonneg _ (le_of_lt hMQ)
      linarith
    · rw [div_le_one hMQ]
      linarith

/-! ## Nonnegativity of the score pieces -/

theorem synScore_nonneg (w syn : List Char) : 0 ≤ synScore w syn := by
  unfold synScore
  split_ifs with h
  · nlinarith
  · exact le_refl 0

theorem catScore_nonneg (w : List Char) : 0 ≤ catScore w := by
  unfold catScore
  apply List.sum_nonneg
  intro q hq
  simp only [List.mem_map] at hq
  obtain ⟨e, _, rfl⟩ := hq
  split_ifs
  · exact le_refl 0
  · apply List.sum_nonneg
    intro r hr
    simp only [List.mem_map] at hr
    obtain ⟨syn, _, rfl⟩ := hr
    exact synScore_nonneg w syn

theorem genScore_nonneg (w : List Char) : 0 ≤ genScore w := by
  unfold genScore
  apply List.sum_nonneg
  intro q hq
  simp only [List.mem_map] at hq
  obtain ⟨t, _, rfl⟩ := hq
  split_ifs <;> norm_num

theorem tokenScore_nonneg (msg w : List Char) : 0 ≤ tokenScore msg w := by
  unfold tokenScore
  have h1 := catScore_nonneg w
  have h2 := genScore_nonneg w
  split_ifs <;> linarith

theorem typeScan_snd_nonneg (msg : List Char) : 0 ≤ (typeScan msg).2 := by
  unfold typeScan
  split_ifs <;> norm_num

theorem furnishScan_snd_nonneg (msg : List Char) : 0 ≤ (furnishScan msg).2 := by
  simp only [furnishScan]
  split_ifs <;> norm_num

theorem intentScore_nonneg (m : List Char) : 0 ≤ intentScore m := by
  unfold intentScore
  rw [wordsFold_eq]
  have h1 : 0 ≤ ((splitWs (toLower m)).map (tokenScore (toLower m))).sum := by
    apply List.sum_nonneg
    intro q hq
    simp only [List.mem_map] at hq
    obtain ⟨w, _, rfl⟩ := hq
    exact tokenScore_nonneg _ w
  have h2 := typeScan_snd_nonneg (toLower m)
  have h3 := furnishScan_snd_nonneg (toLower m)
  linarith

/-! ## The `detectedCategory` decision rule -/

theorem foldl_flatMap_eq {α β K : Type} (g : α → List β) (f : K → β → K) :
    ∀ (l : List α) (c : K),
      (l.flatMap g).foldl f c = l.foldl (fun acc x => (g x).foldl f acc) c := by
  intro l
  induction l with
  | nil => intro c; rfl
  | cons x l ih =>
    intro c
    simp only [List.flatMap_cons, List.foldl_append, List.foldl_cons, ih]

theorem foldl_filterMap_eq {α β K : Type} (g : α → Option β) (f : K → β → K) :
    ∀ (l : List α) (c : K),
      (l.filterMap g).foldl f c =
        l.foldl
          (fun acc x =>
            match g x with
            | some y => f acc y
            | none => acc)
          c := by
  intro l
  induction l with
  | nil => intro c; rfl
  | cons x l ih =>
    intro c
    cases hgx : g x <;>
      simp only [List.filterMap_cons, hgx, List.foldl_cons, ih]

theorem catUpd_eq_matches (w : List Char) (c : Option (List Char)) :
    catUpd w c = (catMatchesOfWord w).foldl updCategory c := by
  unfold catUpd catMatchesOfWord
  rw [foldl_flatMap_eq]
  refine foldl_ext _ _ ?_ propertyKeywords c
  intro acc e
  by_cases h : e.1 ∈ skipList
  · simp [h]
  · simp only [show skipList.contains e.1 = false by simpa using h,
      Bool.false_eq_true, if_false]
    rw [foldl_filterMap_eq]
    refine foldl_ext _ _ ?_ e.2 acc
    intro acc2 syn
    by_cases hs : similarityScore w syn > (7 : ℚ)/10
    · simp [hs, updCategory]
    · simp [hs]

theorem wordsCat_eq_matches (words : List (List Char))
    (c : Option (List Char)) :
    words.foldl (fun c w => catUpd w c) c =
      (catMatches words).foldl updCategory c := by
  unfold catMatches
  rw [foldl_flatMap_eq]
  refine foldl_ext _ _ ?_ words c
  intro acc w
  exact catUpd_eq_matches w acc

/-- Folding the `detectedCategory` update over a list of recorded matches
produces the category of the last match with similarity above 0.85; when
there is none, the starting category if set, else the first match. -/
theorem foldl_updCategory_char :
    ∀ (ms : List (List Char × ℚ)) (c : Option (List Char)),
      ms.foldl updCategory c =
        match (ms.filter (fun p => p.2 > (17 : ℚ)/20)).getLast? with
        | some p => some p.1
        | none => c.orElse (fun _ => ms.head?.map Prod.fst) := by
  intro ms
  induction ms with
  | nil => intro c; cases c <;> simp [Option.orElse]
  | cons m ms ih =>
    intro c
    simp only [List.foldl_cons]
    rw [ih (updCategory c m)]
    by_cases h85 : m.2 > (17 : ℚ)/20
    · have hupd : updCategory c m = some m.1 := by simp [updCategory, h85]
      have hfil : (m :: ms).filter (fun p => p.2 > (17 : ℚ)/20) =
          m :: ms.filter (fun p => p.2 > (17 : ℚ)/20) :=
        List.filter_cons_of_pos (by simpa using h85)
      rw [hupd, hfil]
      cases hf : ms.filter (fun p => p.2 > (17 : ℚ)/20) with
      | nil => simp [hf, Option.orElse]
      | cons q qs =>
        have : (m :: q :: qs).getLast? = (q :: qs).getLast? :=
          List.getLast?_cons_cons
        rw [this]
        have hs : ((q :: qs).getLast?).isSome :=
          List.getLast?_isSome.mpr (by simp)
        obtain ⟨p, hp⟩ := Option.isSome_iff_exists.mp hs
        simp [hp]
    · have hfil : (m :: ms).filter (fun p => p.2 > (17 : ℚ)/20) =
          ms.filter (fun p => p.2 > (17 : ℚ)/20) :=
        List.filter_cons_of_neg (by simpa using h85)
      rw [hfil]
      cases c with
      | some x =>
        have hupd : updCategory (some x) m = some x := by
          simp [updCategory, h85]
        rw [hupd]
        cases hl : (ms.filter (fun p => p.2 > (17 : ℚ)/20)).getLast? <;>
          simp [hl, Option.orElse]
      | none =>
        have hupd : updCategory none m = some m.1 := by
          simp [updCategory]
        rw [hupd]
        cases hl : (ms.filter (fun p => p.2 > (17 : ℚ)/20)).getLast? <;>
          simp [hl, Option.orElse]

/-! ## Concrete evaluations used by the whitespace claims -/

theorem containsSub_nil_right (hay : List Char) : containsSub hay [] = true := by
  cases hay <;> simp [containsSub, hasPre]

/-- Against the empty token the similarity of any nonempty synonym is 0.8:
the empty string is a substring of every string. -/
theorem similarityScore_nil (syn : List Char) (h : toLower syn ≠ []) :
    similarityScore [] syn = (4 : ℚ)/5 := by
  cases hs : toLower syn with
  | nil => exact absurd hs h
  | cons c s =>
    simp only [similarityScore]
    have h1 : toLower ([] : List Char) = [] := rfl
    rw [h1, hs]
    rw [if_neg (by simp), if_pos (by simp [containsSub, hasPre,
      containsSub_nil_right])]

theorem genScore_nil_aux : ∀ L : List (List Char), (∀ t ∈ L, toLower t ≠ []) →
    (L.map (fun t => if similarityScore [] t > (3 : ℚ)/4 then (1 : ℚ) else 0)).sum =
      L.length := by
  intro L
  induction L with
  | nil => intro _; simp
  | cons t L ih =>
    intro h
    simp only [List.map_cons, List.sum_cons, List.length_cons]
    rw [similarityScore_nil t (h t (by simp)),
      ih (fun t ht => h t (by simp [ht]))]
    rw [if_pos (by norm_num)]
    push_cast
    ring

theorem genScore_nil : genScore [] = 15 := by
  unfold genScore
  rw [genScore_nil_aux generalTerms (by decide)]
  decide

theorem isWs_toLower (c : Char) (h : isWs c = true) : isWs c.toLower = true := by
  have hc := of_decide_eq_true h
  rcases hc with rfl | rfl | rfl | rfl | rfl | rfl | rfl <;> decide

theorem splitWs_cons_ws (c : Char) (s : List Char) (hc : isWs c = true) :
    ∃ rest, splitWs (c :: s) = [] :: rest := by
  simp only [splitWs, List.foldr_cons, hc, if_true]
  cases hA : s.foldr
      (fun c acc =>
        if isWs c then
          match acc with
          | [] :: _ :: _ => acc
          | _ => [] :: acc
        else
          match acc with
          | t :: rest => (c :: t) :: rest
          | [] => [[c]])
      [[]] with
  | nil => exact ⟨[], rfl⟩
  | cons t rest =>
    rcases t with _ | ⟨a, t'⟩ <;> rcases rest with _ | ⟨r, rest'⟩ <;>
      exact ⟨_, rfl⟩

theorem sum_map_add_const {α : Type} (A : α → ℚ) (δ : ℚ) :
    ∀ l : List α,
      (l.map (fun w => A w + δ)).sum = (l.map A).sum + l.length * δ := by
  intro l
  induction l with
  | nil => simp
  | cons x l ih =>
    simp only [List.map_cons, List.sum_cons, List.length_cons, ih]
    push_cast
    ring

/-! ## The price-scale scan -/

theorem scaleUnitAt_units (s u : List Char) (h : scaleUnitAt s = some u) :
    u = "m".data ∨ u = "k".data ∨ u = "thousand".data := by
  cases s with
  | nil => simp [scaleUnitAt] at h
  | cons c rest =>
    simp only [scaleUnitAt] at h
    split_ifs at h <;> simp_all

theorem priceScan_units : ∀ (s : List Char) (n : Nat) (u : List Char),
    priceScan s = some (n, u) →
    u = "m".data ∨ u = "k".data ∨ u = "thousand".data := by
  intro s
  induction s with
  | nil => intro n u h; simp [priceScan] at h
  | cons c rest ih =>
    intro n u h
    simp only [priceScan] at h
    by_cases hd : c.isDigit
    · rw [if_pos hd] at h
      cases hsc : scaleUnitAt ((rest.dropWhile Char.isDigit).dropWhile isWs) with
      | some u2 =>
        rw [hsc] at h
        have hu : u2 = u := by
          simpa using congrArg (fun o => (Option.map Prod.snd o)) h
        exact hu ▸ scaleUnitAt_units _ u2 hsc
      | none =>
        rw [hsc] at h
        exact ih n u h
    · rw [if_neg hd] at h
      exact ih n u h

/-! ## First-match semantics of the gazetteer loop -/

theorem detectLocationGo_spec (msg : List Char) :
    ∀ l : List (List Char),
      (∀ out, detectLocationGo msg l = some out ↔
        ∃ (k : Nat) (hk : k < l.length),
          containsSub msg l[k] = true ∧ out = titleCase l[k] ∧
          ∀ e ∈ l.take k, containsSub msg e = false) ∧
      (detectLocationGo msg l = none ↔
        ∀ e ∈ l, containsSub msg e = false) := by
  intro l
  induction l with
  | nil =>
    constructor
    · intro out
      simp [detectLocationGo]
    · simp [detectLocationGo]
  | cons a l ih =>
    by_cases hc : containsSub msg a = true
    · constructor
      · intro out
        simp only [detectLocationGo, hc, if_true]
        constructor
        · intro h
          refine ⟨0, by simp, by simpa using hc, ?_, by simp⟩
          simpa using h.symm
        · rintro ⟨k, hk, hck, hout, hpre⟩
          cases k with
          | zero => simp_all
          | succ k =>
            exfalso
            have ha : a ∈ (a :: l).take (k + 1) := by simp
            rw [hpre a ha] at hc
            exact Bool.false_ne_true hc
      · simp [detectLocationGo, hc]
    · have hcf : containsSub msg a = false := by
        simpa using hc
      constructor
      · intro out
        simp only [detectLocationGo, hcf, Bool.false_eq_true, if_false]
        rw [(ih.1 out)]
        constructor
        · rintro ⟨k, hk, hck, hout, hpre⟩
          refine ⟨k + 1, by simpa using Nat.succ_lt_succ hk, ?_, ?_, ?_⟩
          · simpa using hck
          · simpa using hout
          · intro e he
            simp only [List.take_succ_cons, List.mem_cons] at he
            rcases he with rfl | he
            · exact hcf
            · exact hpre e he
        · rintro ⟨k, hk, hck, hout, hpre⟩
          cases k with
          | zero =>
            exfalso
            rw [show (a :: l)[0] = a from rfl, hcf] at hck
            exact Bool.false_ne_true hck
          | succ k =>
            refine ⟨k, by simpa using Nat.lt_of_succ_lt_succ hk, ?_, ?_, ?_⟩
            · simpa using hck
            · simpa using hout
            · intro e he
              exact hpre e (by simp [he])
      · simp only [detectLocationGo, hcf, Bool.false_eq_true, if_false]
        rw [ih.2]
        constructor
        · intro h e he
          rcases List.mem_cons.mp he with rfl | he
          · exact hcf
          · exact h e he
        · intro h e he
          exact h e (by simp [he])

/-! ## The claims -/

/-- Claim C1, counterexample: the message `"unfurnished"` contains the
"furnished" synonym `"furnished"` as a substring, yet
`detectPropertyIntent` reports `isFurnished = false` — the unfurnished
scan is not skipped when a furnished synonym was found. -/
theorem claimC1_counterexample :
    ("furnished".data ∈ furnishedWords ∧
      "furnished".data <:+: toLower "unfurnished".data) ∧
    (detectPropertyIntent "unfurnished".data).isFurnished = some false := by
  refine ⟨⟨by decide, by decide⟩, ?_⟩
  rw [detect_isFurnished]
  decide

/-- Claim C1, amended: scanning the message for a "furnished" synonym sets
`features.isFurnished = true` and adds 0.5; the "unfurnished" scan then
runs unconditionally (it is not gated on the furnished scan) and on a hit
overwrites `features.isFurnished = false`, adding another 0.5.  Hence a
message containing a furnished synonym ends with `isFurnished = true` only
when it contains no unfurnished synonym. -/
theorem claimC1_furnish_scan (message : List Char) :
    ((detectPropertyIntent message).isFurnished =
      if unfurnishedWords.any (fun w => containsSub (toLower message) w) then
        some false
      else if furnishedWords.any (fun w => containsSub (toLower message) w) then
        some true
      else none) ∧
    ((furnishScan (toLower message)).2 =
      (if furnishedWords.any (fun w => containsSub (toLower message) w) then
        (1 : ℚ)/2
       else 0) +
      (if unfurnishedWords.any (fun w => containsSub (toLower message) w) then
        (1 : ℚ)/2
       else 0)) ∧
    (furnishedWords.any (fun w => containsSub (toLower message) w) = true ↔
      ∃ w ∈ furnishedWords, w <:+: toLower message) ∧
    (unfurnishedWords.any (fun w => containsSub (toLower message) w) = true ↔
      ∃ w ∈ unfurnishedWords, w <:+: toLower message) := by
  refine ⟨?_, ?_, any_containsSub_iff _ _, any_containsSub_iff _ _⟩
  · rw [detect_isFurnished]
    by_cases hu :
        unfurnishedWords.any (fun w => containsSub (toLower message) w) = true <;>
      by_cases hf :
        furnishedWords.any (fun w => containsSub (toLower message) w) = true <;>
      simp [furnishScan, hu, hf]
  · by_cases hu :
        unfurnishedWords.any (fun w => containsSub (toLower message) w) = true <;>
      by_cases hf :
        furnishedWords.any (fun w => containsSub (toLower message) w) = true <;>
      simp [furnishScan, hu, hf]

/-- Claim C2: the detected category is the category of the last
token/synonym match (token order, then keyword-table order, then synonym
order) whose fuzzy similarity exceeded 0.85; if no match exceeded 0.85, it
is the category of the first match whose similarity exceeded 0.7 — the
category is updated only when it is unset or the similarity exceeds
0.85. -/
theorem claimC2_category_rule (message : List Char) :
    (detectPropertyIntent message).category =
      categoryChoice (catMatches (splitWs (toLower message))) := by
  rw [detect_category, wordsFold_eq]
  show (splitWs (toLower message)).foldl (fun c w => catUpd w c) none =
    categoryChoice (catMatches (splitWs (toLower message)))
  rw [wordsCat_eq_matches, foldl_updCategory_char]
  unfold categoryChoice
  cases hl : ((catMatches (splitWs (toLower message))).filter
      (fun p => p.2 > (17 : ℚ)/20)).getLast? <;>
    simp [hl, Option.orElse]

/-- Claim C3: `similarityScore` lies in `[0,1]`; it is 1 exactly on the
lower-cased-equality branch (in particular on two empty strings), 0.8 on
substring containment either way, and otherwise
`(maxLen - editDistance) / maxLen` where `editDistance` is the Levenshtein
distance (unit-cost insertions, deletions and substitutions, the `lev` of
this file) of the lower-cased strings and `maxLen` the longer length. -/
theorem claimC3_similarity_contract (str1 str2 : List Char) :
    (0 ≤ similarityScore str1 str2 ∧ similarityScore str1 str2 ≤ 1) ∧
    (toLower str1 = toLower str2 → similarityScore str1 str2 = 1) ∧
    (toLower str1 ≠ toLower str2 →
      (toLower str1 <:+: toLower str2 ∨ toLower str2 <:+: toLower str1) →
      similarityScore str1 str2 = 0.8) ∧
    (toLower str1 ≠ toLower str2 →
      ¬(toLower str1 <:+: toLower str2 ∨ toLower str2 <:+: toLower str1) →
      similarityScore str1 str2 =
        (((max (toLower str1).length (toLower str2).length : ℕ) : ℚ) -
            lev (toLower str1) (toLower str2)) /
          ((max (toLower str1).length (toLower str2).length : ℕ) : ℚ)) := by
  refine ⟨similarityScore_bounds str1 str2, ?_, ?_, ?_⟩
  · intro h
    rw [similarityScore_eq, if_pos h]
  · intro h hin
    have hb : (containsSub (toLower str1) (toLower str2) ||
        containsSub (toLower str2) (toLower str1)) = true := by
      simp only [Bool.or_eq_true, containsSub_iff]
      tauto
    rw [similarityScore_eq, if_neg h, if_pos hb]
    norm_num
  · intro h hnin
    have hb : ¬ (containsSub (toLower str1) (toLower str2) ||
        containsSub (toLower str2) (toLower str1)) = true := by
      simp only [Bool.or_eq_true, containsSub_iff]
      tauto
    rw [similarityScore_eq, if_neg h, if_neg hb]

/-- Claim C3, witness: concrete instances of the three branches. -/
theorem claimC3_witness :
    similarityScore "Cat".data "cat".data = 1 ∧
    similarityScore "flat".data "flats".data = 0.8 ∧
    similarityScore "abc".data "abd".data =
      (((max (toLower "abc".data).length (toLower "abd".data).length : ℕ) : ℚ) -
          lev (toLower "abc".data) (toLower "abd".data)) /
        ((max (toLower "abc".data).length (toLower "abd".data).length : ℕ) : ℚ) :=
  ⟨(claimC3_similarity_contract "Cat".data "cat".data).2.1 (by decide),
   (claimC3_similarity_contract "flat".data "flats".data).2.2.1 (by decide)
     (by decide),
   (claimC3_similarity_contract "abc".data "abd".data).2.2.2 (by decide)
     (by decide)⟩

/-- Claim C4: `similarityScore` is symmetric, in every branch, including
the edit-distance branch where the longer/shorter ordering is chosen by a
strict length comparison. -/
theorem claimC4_similarity_symm (x y : List Char) :
    similarityScore x y = similarityScore y x := by
  rw [similarityScore_eq, similarityScore_eq]
  by_cases h : toLower x = toLower y
  · rw [if_pos h, if_pos h.symm]
  · have h' : ¬ toLower y = toLower x := fun hc => h hc.symm
    rw [if_neg h, if_neg h']
    by_cases hb : (containsSub (toLower x) (toLower y) ||
        containsSub (toLower y) (toLower x)) = true
    · rw [if_pos hb, if_pos (by rwa [Bool.or_comm] at hb)]
    · rw [if_neg hb, if_neg (fun hc => hb (by rwa [Bool.or_comm] at hc)),
        max_comm ((toLower x).length) ((toLower y).length),
        lev_symm (toLower x) (toLower y)]

/-- Claim C5: `confidence` is `min(score/5, 1)` for the non-negative score
accumulator — never negative and never above 1 — and `isPropertyRelated`
holds exactly when the score exceeds 1.5. -/
theorem claimC5_score_invariants (message : List Char) :
    0 ≤ intentScore message ∧
    (detectPropertyIntent message).confidence =
      min (intentScore message / 5) 1 ∧
    0 ≤ (detectPropertyIntent message).confidence ∧
    (detectPropertyIntent message).confidence ≤ 1 ∧
    ((detectPropertyIntent message).isPropertyRelated = true ↔
      intentScore message > 3/2) := by
  have h0 := intentScore_nonneg message
  refine ⟨h0, detect_confidence message, ?_, ?_, ?_⟩
  · rw [detect_confidence]
    apply le_min
    · linarith
    · norm_num
  · rw [detect_confidence]
    exact min_le_right _ _
  · rw [detect_isPropertyRelated]
    exact decide_eq_true_iff

/-- Claim C6: `detectLocation` returns (title-cased) the first gazetteer
entry in table order occurring as a substring of the lower-cased message —
independently of where entries appear in the text — and `null` when no
entry occurs. -/
theorem claimC6_location_first_match (message : List Char) :
    (∀ out, detectLocation message = some out ↔
      ∃ (k : Nat) (hk : k < locationsList.length),
        locationsList[k] <:+: toLower message ∧
        out = titleCase locationsList[k] ∧
        ∀ e ∈ locationsList.take k, ¬ e <:+: toLower message) ∧
    (detectLocation message = none ↔
      ∀ e ∈ locationsList, ¬ e <:+: toLower message) := by
  have h := detectLocationGo_spec (toLower message) locationsList
  unfold detectLocation
  constructor
  · intro out
    rw [h.1 out]
    constructor
    · rintro ⟨k, hk, hck, hout, hpre⟩
      exact ⟨k, hk, (containsSub_iff _ _).mp hck, hout,
        fun e he => (containsSub_false_iff _ _).mp (hpre e he)⟩
    · rintro ⟨k, hk, hck, hout, hpre⟩
      exact ⟨k, hk, (containsSub_iff _ _).mpr hck, hout,
        fun e he => (containsSub_false_iff _ _).mpr (hpre e he)⟩
  · rw [h.2]
    constructor
    · intro hh e he
      exact (containsSub_false_iff _ _).mp (hh e he)
    · intro hh e he
      exact (containsSub_false_iff _ _).mpr (hh e he)

/-- Claim C6, witness: in `"houses in kilimani and karen"` both `karen`
(table index 1) and `kilimani` (table index 3) occur, `kilimani` earlier
in the text; the result is the table-earlier `Karen`. -/
theorem claimC6_witness :
    detectLocation "houses in kilimani and karen".data =
      some (titleCase "karen".data) :=
  ((claimC6_location_first_match "houses in kilimani and karen".data).1
      _).mpr
    ⟨1, by decide, by decide, rfl, by decide⟩

/-- Claim C7: the action check runs once per whitespace token and tests
the whole message, breaking out of the inner loop only for that token; so
with at least one action phrase present it contributes exactly
`0.5 × (number of tokens)` to the score, and 0 otherwise. -/
theorem claimC7_action_per_token (message : List Char) :
    ((wordsFold (toLower message) (splitWs (toLower message))).1 =
      (wordsFoldBase (splitWs (toLower message))).1 +
        (if actionHit (toLower message) then
          ((splitWs (toLower message)).length : ℚ) * (1/2)
         else 0)) ∧
    (actionHit (toLower message) = true ↔
      ∃ a ∈ actionWords, a <:+: toLower message) := by
  constructor
  · rw [wordsFold_eq, wordsFoldBase_eq]
    by_cases ha : actionHit (toLower message) = true
    · rw [if_pos ha]
      have hts : ∀ w, tokenScore (toLower message) w =
          catScore w + genScore w + 1/2 := by
        intro w
        simp [tokenScore, ha]
      have hsum : (List.map (tokenScore (toLower message))
          (splitWs (toLower message))).sum =
          (List.map (fun w => catScore w + genScore w)
            (splitWs (toLower message))).sum +
            ((splitWs (toLower message)).length : ℚ) * (1/2) := by
        rw [List.map_congr_left (fun w _ => hts w)]
        exact sum_map_add_const (fun w => catScore w + genScore w) (1/2)
          (splitWs (toLower message))
      simp only [hsum]
    · rw [if_neg ha]
      have hts : ∀ w, tokenScore (toLower message) w =
          catScore w + genScore w := by
        intro w
        simp [tokenScore, ha]
      rw [List.map_congr_left (fun w _ => hts w)]
      simp
  · unfold actionHit
    exact any_containsSub_iff actionWords (toLower message)

/-- Claim C8, counterexample: `"5 thousand houses"` extracts the number 5
and its digit run is followed by the scale token `thousand`, yet no
`maxPrice` is produced — the unit check tests only `startsWith("m")` and
`startsWith("k")`, so a `thousand` match sets nothing (the claim demands
`5 * 1000`). -/
theorem claimC8_counterexample :
    extractNumbers "5 thousand houses".data = [5] ∧
    priceScan "5 thousand houses".data = some (5, "thousand".data) ∧
    chatMaxPrice "5 thousand houses".data = none ∧
    chatMaxPrice "5 thousand houses".data ≠ some (5 * 1000) := by
  refine ⟨by decide, by decide, by decide, by decide⟩

/-- Claim C8, amended: when a number was extracted and the price regex
matches, the matched unit is `m`, `k` or `thousand` (an `m`/`million`
token is always captured as `m`); `maxPrice` is the number times 1 000 000
for unit `m`, times 1 000 for unit `k`, and is not set for the unit
`thousand`. -/
theorem claimC8_price_scale (msg : List Char) (n : Nat) (u : List Char)
    (h1 : extractNumbers msg ≠ []) (h2 : priceScan msg = some (n, u)) :
    (u = "m".data ∨ u = "k".data ∨ u = "thousand".data) ∧
    chatMaxPrice msg =
      (if u = "m".data then some (n * 1000000)
       else if u = "k".data then some (n * 1000)
       else none) := by
  have hu := priceScan_units msg n u h2
  refine ⟨hu, ?_⟩
  unfold chatMaxPrice
  rw [if_pos (by simpa [List.length_pos] using h1), h2]
  rcases hu with rfl | rfl | rfl <;> rfl

/-- Claim C8, witness: `"25k flats"` produces `maxPrice = 25 * 1000`. -/
theorem claimC8_witness :
    chatMaxPrice "25k flats".data =
      (if ("k".data : List Char) = "m".data then some (25 * 1000000)
       else if ("k".data : List Char) = "k".data then some (25 * 1000)
       else none) :=
  (claimC8_price_scale "25k flats".data 25 "k".data (by decide) (by decide)).2

/-- Claim C9: if parsing the code-fence-stripped LLM reply fails — for any
reply and any behaviour of the parser — the filters fall back to the
locally computed coarse filter unchanged, and no error propagates
(`refineFilters` is total). -/
theorem claimC9_json_fallback {E F : Type} (parse : List Char → Except E F)
    (baseFilters : F) (reply : List Char) (e : E)
    (h : parse (cleanAiResponse reply) = .error e) :
    refineFilters parse baseFilters reply = baseFilters := by
  unfold refineFilters
  rw [h]

/-- Claim C9, witness: a parser that always fails yields the base
filters. -/
theorem claimC9_witness :
    refineFilters (fun _ => (Except.error 0 : Except Nat Nat)) 42
      "not json".data = 42 :=
  claimC9_json_fallback (fun _ => (Except.error 0 : Except Nat Nat)) 42
    "not json".data 0 rfl

/-- Claim C10: a message that is empty or starts with whitespace splits
with an empty first token; the empty token matches every synonym at
similarity 0.8, pushing the score far beyond every threshold, so the
message is classified property-related with confidence 1. -/
theorem claimC10_blank_message (message : List Char)
    (h : message = [] ∨ ∃ c, message.head? = some c ∧ isWs c = true) :
    (detectPropertyIntent message).isPropertyRelated = true ∧
    (detectPropertyIntent message).confidence = 1 := by
  have hsplit : ∃ rest, splitWs (toLower message) = [] :: rest := by
    rcases h with h | ⟨c, hc, hw⟩
    · subst h
      exact ⟨[], rfl⟩
    · cases message with
      | nil => simp at hc
      | cons c0 s =>
        have hc0 : c0 = c := by simpa using hc
        subst hc0
        exact splitWs_cons_ws c0.toLower (toLower s) (isWs_toLower c0 hw)
  obtain ⟨rest, hr⟩ := hsplit
  have hscore : (5 : ℚ) ≤ intentScore message := by
    unfold intentScore
    rw [wordsFold_eq, hr]
    simp only [List.map_cons, List.sum_cons]
    have h1 : (15 : ℚ) ≤ tokenScore (toLower message) [] := by
      unfold tokenScore
      rw [genScore_nil]
      have hc := catScore_nonneg ([] : List Char)
      split_ifs <;> linarith
    have h2 : 0 ≤ (rest.map (tokenScore (toLower message))).sum := by
      apply List.sum_nonneg
      intro q hq
      simp only [List.mem_map] at hq
      obtain ⟨w, _, rfl⟩ := hq
      exact tokenScore_nonneg _ w
    have h3 := typeScan_snd_nonneg (toLower message)
    have h4 := furnishScan_snd_nonneg (toLower message)
    linarith
  constructor
  · rw [detect_isPropertyRelated]
    simp only [decide_eq_true_eq]
    linarith
  · rw [detect_confidence]
    have h15 : (1 : ℚ) ≤ intentScore message / 5 := by linarith
    simp [min_eq_right h15]

/-- Claim C10, witness: the empty message. -/
theorem claimC10_witness :
    ("".data = ([] : List Char) ∨
      ∃ c, "".data.head? = some c ∧ isWs c = true) ∧
    ((detectPropertyIntent "".data).isPropertyRelated = true ∧
      (detectPropertyIntent "".data).confidence = 1) :=
  ⟨Or.inl rfl, claimC10_blank_message "".data (Or.inl rfl)⟩

end Home254
